import Mathlib

/-!
Shallow embedding of the decimal_for_cpp arithmetic core
(src/include/dec/utils.h and src/include/dec/fixed.h) and proofs about it.

Conventions of the embedding:
* The C type int64 is modelled as Int.  C truncated division and remainder
  correspond to Int.tdiv and Int.tmod.  Signed-overflow checks in the source
  compare against the explicit constants DEC_MAX_INT64 / DEC_MIN_INT64, which
  we reproduce literally; where the source relies on two's-complement wrap
  (only the negation inside abs at INT64_MIN matters for any claim), the wrap
  is modelled explicitly via wrap64.
* The extended-precision floating fallback of multDiv is not modelled as
  floating point; multDivAux instead reports exactly which reduced triple the
  source would hand to that fallback, and multDivF takes the fallback as an
  explicit function parameter.  multDivCore returns none exactly when control
  reaches the floating fallback.
* The stream codec is modelled over lists of characters with the classic "C"
  locale (decimal point '.', no thousands grouping), matching the default
  stream locale.  A read past the end of the input yields the EOF character
  (the int -1 cast to char), which the source's scanner then processes once.
-/

namespace DecCpp

/-- DEC_MAX_INT64, the largest signed 64-bit integer. -/
def maxI64 : Int := 2 ^ 63 - 1

/-- DEC_MIN_INT64, the smallest signed 64-bit integer. -/
def minI64 : Int := -(2 ^ 63)

/-- Two's-complement wrap of an integer into the signed 64-bit range. -/
def wrap64 (x : Int) : Int := (x + 2 ^ 63) % 2 ^ 64 - 2 ^ 63

/-! ### Basic facts about truncated remainder -/

theorem tmod_ofNat_natAbs (m : Nat) (b : Int) :
    Int.tmod (Int.ofNat m) b = Int.ofNat (m % b.natAbs) := by
  cases b <;> rfl

theorem tmod_negSucc_natAbs (m : Nat) (b : Int) :
    Int.tmod (Int.negSucc m) b = -Int.ofNat ((m + 1) % b.natAbs) := by
  cases b <;> rfl

theorem natAbs_tmod (a b : Int) : (a.tmod b).natAbs = a.natAbs % b.natAbs := by
  cases a with
  | ofNat m => rw [tmod_ofNat_natAbs]; rfl
  | negSucc m => rw [tmod_negSucc_natAbs, Int.natAbs_neg]; rfl

theorem tmod_nonpos {a : Int} (b : Int) (ha : a ≤ 0) : a.tmod b ≤ 0 := by
  cases a with
  | ofNat m =>
      have hm : m = 0 := by
        simp only [Int.ofNat_eq_natCast] at ha
        exact Nat.le_zero.mp (by exact_mod_cast ha)
      subst hm; simp
  | negSucc m =>
      rw [tmod_negSucc_natAbs]
      simp only [Int.ofNat_eq_natCast]
      omega

theorem natAbs_tmod_lt {a b : Int} (hb : b ≠ 0) : (a.tmod b).natAbs < b.natAbs := by
  rw [natAbs_tmod]
  exact Nat.mod_lt _ (by omega)

theorem natAbs_tmod_le (a b : Int) : (a.tmod b).natAbs ≤ a.natAbs := by
  rw [natAbs_tmod]; exact Nat.mod_le _ _

theorem tmod_eq_self_of_natAbs_lt {a b : Int} (h : a.natAbs < b.natAbs) :
    a.tmod b = a := by
  cases a with
  | ofNat m =>
      rw [tmod_ofNat_natAbs, Nat.mod_eq_of_lt]
      exact h
  | negSucc m =>
      have h' : m + 1 < b.natAbs := h
      rw [tmod_negSucc_natAbs, Nat.mod_eq_of_lt h']
      simp only [Int.ofNat_eq_natCast, Int.negSucc_eq]
      push_cast
      ring

theorem tmod_self_add_mul (a b : Int) : a = b * a.tdiv b + a.tmod b :=
  (Int.tdiv_add_tmod a b).symm

/-! ### Round-to-nearest with ties away from zero, in exact arithmetic

This is the specification-side description of what the default rounding
policy computes: the quotient a/b rounded to the nearest integer, a tie
being resolved away from zero. -/

/-- Exact rounding of the rational a/b to the nearest integer, ties away
from zero, computed in arbitrary precision. -/
def roundAway (a b : Int) : Int :=
  if 0 ≤ a * b then ((2 * a.natAbs + b.natAbs) / (2 * b.natAbs) : Nat)
  else -((2 * a.natAbs + b.natAbs) / (2 * b.natAbs) : Nat)

theorem roundAway_zero_left (b : Int) (hb : b ≠ 0) : roundAway 0 b = 0 := by
  unfold roundAway
  have : b.natAbs / (2 * b.natAbs) = 0 := Nat.div_eq_of_lt (by omega)
  simp [this]

theorem roundAway_neg_right (a b : Int) (hb : b ≠ 0) :
    roundAway a (-b) = -roundAway a b := by
  have hM0 : a = 0 → ((2 * a.natAbs + b.natAbs) / (2 * b.natAbs) : Nat) = 0 := by
    intro h; subst h; simpa using Nat.div_eq_of_lt (show b.natAbs < 2 * b.natAbs by omega)
  unfold roundAway
  simp only [Int.natAbs_neg, mul_neg]
  rcases lt_trichotomy (a * b) 0 with h | h | h
  · rw [if_pos (by omega), if_neg (by omega)]; ring
  · have ha : a = 0 := by
      rcases mul_eq_zero.mp h with h' | h'
      · exact h'
      · exact absurd h' hb
    rw [hM0 ha]
    simp
  · rw [if_neg (by omega), if_pos (by omega)]

theorem roundAway_neg_left (a b : Int) (hb : b ≠ 0) :
    roundAway (-a) b = -roundAway a b := by
  have hM0 : a = 0 → ((2 * a.natAbs + b.natAbs) / (2 * b.natAbs) : Nat) = 0 := by
    intro h; subst h; simpa using Nat.div_eq_of_lt (show b.natAbs < 2 * b.natAbs by omega)
  unfold roundAway
  simp only [Int.natAbs_neg, neg_mul]
  rcases lt_trichotomy (a * b) 0 with h | h | h
  · rw [if_pos (by omega), if_neg (by omega)]; ring
  · have ha : a = 0 := by
      rcases mul_eq_zero.mp h with h' | h'
      · exact h'
      · exact absurd h' hb
    rw [hM0 ha]
    simp
  · rw [if_neg (by omega), if_pos (by omega)]

/-- On nonnegative numerator and positive denominator, roundAway is the
floor of (2a+b)/(2b). -/
theorem roundAway_nonneg_pos {a b : Int} (ha : 0 ≤ a) (hb : 0 < b) :
    roundAway a b = (2 * a + b) / (2 * b) := by
  unfold roundAway
  have hab : 0 ≤ a * b := mul_nonneg ha hb.le
  simp only [hab, if_pos]
  have h2a : ((2 * a.natAbs + b.natAbs : Nat) : Int) = 2 * a + b := by
    rw [Nat.cast_add, Nat.cast_mul]
    rw [Int.natAbs_of_nonneg ha, Int.natAbs_of_nonneg hb.le]
    norm_num
  have h2b : ((2 * b.natAbs : Nat) : Int) = 2 * b := by
    rw [Nat.cast_mul, Int.natAbs_of_nonneg hb.le]; norm_num
  rw [← h2a, ← h2b]
  exact_mod_cast (Int.ofNat_ediv _ _)

/-- Key arithmetic identity behind the default rounding policy: adding half
the divisor before dividing realises round-to-nearest on naturals. -/
theorem nat_add_half_div (x y : Nat) (hy : 0 < y) :
    (x + y / 2) / y = (2 * x + y) / (2 * y) := by
  rcases Nat.even_or_odd y with ⟨c, hc⟩ | ⟨c, hc⟩
  · subst hc
    have h2 : (c + c) / 2 = c := by omega
    rw [h2]
    have hnum : 2 * x + (c + c) = 2 * (x + c) := by ring
    have hden : 2 * (c + c) = 2 * (c + c) := rfl
    rw [hnum]
    have : 2 * (x + c) / (2 * (c + c)) = (x + c) / (c + c) :=
      Nat.mul_div_mul_left _ _ (by omega)
    rw [this]
  · subst hc
    have h2 : (2 * c + 1) / 2 = c := by omega
    rw [h2]
    have hq := Nat.div_add_mod (x + c) (2 * c + 1)
    have hr : (x + c) % (2 * c + 1) < 2 * c + 1 := Nat.mod_lt _ (by omega)
    set q := (x + c) / (2 * c + 1) with hqdef
    set r := (x + c) % (2 * c + 1) with hrdef
    have hnum : 2 * x + (2 * c + 1) = (2 * r + 1) + (2 * (2 * c + 1)) * q := by
      have hmul : (2 * (2 * c + 1)) * q = 2 * ((2 * c + 1) * q) := by ring
      omega
    rw [hnum, Nat.add_mul_div_left _ _ (by omega), Nat.div_eq_of_lt (by omega)]
    omega

theorem tdiv_add_half_eq_roundAway_nat (x y : Nat) (hy : 0 < y) :
    ((x : Int) + ((y / 2 : Nat) : Int)).tdiv (y : Int) = roundAway (x : Int) (y : Int) := by
  have hcast : ((x : Int) + ((y / 2 : Nat) : Int)) = ((x + y / 2 : Nat) : Int) := by push_cast; ring
  rw [hcast]
  have htd : ((x + y / 2 : Nat) : Int).tdiv (y : Int) = (((x + y / 2) / y : Nat) : Int) :=
    (Int.ofNat_tdiv _ _).symm
  rw [htd]
  unfold roundAway
  have hxy : (0 : Int) ≤ (x : Int) * (y : Int) := by positivity
  rw [if_pos hxy]
  rw [Int.natAbs_ofNat x, Int.natAbs_ofNat y]
  exact_mod_cast nat_add_half_div x y hy

theorem tdiv_add_half_eq_roundAway {a b : Int} (hb : b ≠ 0) (ha : 0 ≤ a) :
    (a + ((b.natAbs / 2 : Nat) : Int)).tdiv b = roundAway a b := by
  have hx : a = ((a.toNat : Nat) : Int) := (Int.toNat_of_nonneg ha).symm
  rcases hb.lt_or_lt with hbneg | hbpos
  · have hrepr : b = -((b.natAbs : Nat) : Int) := by
      rcases Int.natAbs_eq b with h | h
      · omega
      · omega
    rw [hrepr]
    simp only [Int.natAbs_neg, Int.natAbs_ofNat]
    rw [Int.tdiv_neg, roundAway_neg_right _ _ (show ((b.natAbs : Nat) : Int) ≠ 0 by omega), neg_inj]
    rw [hx]
    exact tdiv_add_half_eq_roundAway_nat a.toNat b.natAbs (by omega)
  · have hrepr : b = ((b.natAbs : Nat) : Int) := by
      rcases Int.natAbs_eq b with h | h
      · omega
      · omega
    rw [hrepr, Int.natAbs_ofNat, hx]
    exact tdiv_add_half_eq_roundAway_nat a.toNat b.natAbs (by omega)

theorem tdiv_sub_half_eq_roundAway {a b : Int} (hb : b ≠ 0) (ha : a < 0) :
    (a - ((b.natAbs / 2 : Nat) : Int)).tdiv b = roundAway a b := by
  have h1 : a - ((b.natAbs / 2 : Nat) : Int) = -((-a) + ((b.natAbs / 2 : Nat) : Int)) := by ring
  rw [h1, Int.neg_tdiv]
  rw [tdiv_add_half_eq_roundAway hb (by omega)]
  have := roundAway_neg_left (-a) b hb
  rw [neg_neg] at this
  omega

theorem roundAway_mul_add_pos {k r d : Int} (hdpos : 0 < d)
    (hsgn : (0 ≤ k * d + r ∧ 0 ≤ r) ∨ (k * d + r ≤ 0 ∧ r ≤ 0)) :
    roundAway (k * d + r) d = k + roundAway r d := by
  have hd : d ≠ 0 := by omega
  rcases hsgn with ⟨h1, h2⟩ | ⟨h1, h2⟩
  · rw [roundAway_nonneg_pos h1 hdpos, roundAway_nonneg_pos h2 hdpos]
    have hnum : 2 * (k * d + r) + d = (2 * r + d) + k * (2 * d) := by ring
    rw [hnum, Int.add_mul_ediv_right _ _ (show 2 * d ≠ 0 by omega)]
    ring
  · have e1 : roundAway (k * d + r) d = -roundAway (-(k * d + r)) d := by
      have := roundAway_neg_left (-(k * d + r)) d hd
      rw [neg_neg] at this
      omega
    have e2 : roundAway r d = -roundAway (-r) d := by
      have := roundAway_neg_left (-r) d hd
      rw [neg_neg] at this
      omega
    have hmul : -(k * d + r) = (-k) * d + (-r) := by ring
    have hpos : roundAway ((-k) * d + (-r)) d = -k + roundAway (-r) d := by
      rw [roundAway_nonneg_pos (show (0:Int) ≤ (-k) * d + (-r) by nlinarith) hdpos,
          roundAway_nonneg_pos (show (0:Int) ≤ -r by omega) hdpos]
      have hnum : 2 * ((-k) * d + (-r)) + d = (2 * (-r) + d) + (-k) * (2 * d) := by ring
      rw [hnum, Int.add_mul_ediv_right _ _ (show 2 * d ≠ 0 by omega)]
      ring
    rw [e1, hmul, hpos, e2]
    ring

/-- Quotient shift: rounding (k*d + r)/d shifts by k, provided the remainder
term has the same sign as the whole numerator (which is how the kernel uses
it). -/
theorem roundAway_mul_add {k r d : Int} (hd : d ≠ 0)
    (hsgn : (0 ≤ k * d + r ∧ 0 ≤ r) ∨ (k * d + r ≤ 0 ∧ r ≤ 0)) :
    roundAway (k * d + r) d = k + roundAway r d := by
  rcases hd.lt_or_lt with hdneg | hdpos
  · have e1 : roundAway (k * d + r) d = -roundAway (k * d + r) (-d) := by
      have := roundAway_neg_right (k * d + r) (-d) (show (-d) ≠ 0 by omega)
      rw [neg_neg] at this
      omega
    have e2 : roundAway r d = -roundAway r (-d) := by
      have := roundAway_neg_right r (-d) (show (-d) ≠ 0 by omega)
      rw [neg_neg] at this
      omega
    have hmul : k * d + r = (-k) * (-d) + r := by ring
    have hrec : roundAway ((-k) * (-d) + r) (-d) = -k + roundAway r (-d) := by
      apply roundAway_mul_add_pos (by omega)
      rw [show (-k) * (-d) + r = k * d + r from by ring]
      exact hsgn
    rw [e1, hmul, hrec, e2]
    ring
  · exact roundAway_mul_add_pos hdpos hsgn

/-! ### The default rounding policy (def_round_policy), utils.h lines 141-157

The boolean-and-output-parameter protocol of the source is modelled with
Option: some o is a successful call that wrote o, none is a return of false
(in which case the source writes 0 to the output; callers that ignore the
boolean are modelled with Option.getD 0).  std::abs of the divisor is
modelled with natAbs; the source's DEC_MAX_INT64 / DEC_MIN_INT64 range
checks are reproduced literally. -/

def div_rounded (a b : Int) : Option Int :=
  let divisorCorr : Int := ((b.natAbs / 2 : Nat) : Int)
  if 0 ≤ a then
    if divisorCorr ≤ maxI64 - a then some ((a + divisorCorr).tdiv b) else none
  else
    if divisorCorr ≤ -(minI64 - a) then some ((a - divisorCorr).tdiv b) else none

/-- When the half-divisor correction stays representable, div_rounded
succeeds and returns the exactly rounded quotient. -/
theorem div_rounded_eq_roundAway {a b : Int} (hb : b ≠ 0)
    (h : a.natAbs + b.natAbs / 2 ≤ 2 ^ 63 - 1) :
    div_rounded a b = some (roundAway a b) := by
  unfold div_rounded
  rcases le_or_lt 0 a with ha | ha
  · have hcond : ((b.natAbs / 2 : Nat) : Int) ≤ maxI64 - a := by
      have hna : (a.natAbs : Int) = a := Int.natAbs_of_nonneg ha
      unfold maxI64
      omega
    rw [if_pos ha, if_pos hcond, tdiv_add_half_eq_roundAway hb ha]
  · have hcond : ((b.natAbs / 2 : Nat) : Int) ≤ -(minI64 - a) := by
      have hna : (a.natAbs : Int) = -a := by
        rcases Int.natAbs_eq a with hh | hh
        · omega
        · omega
      unfold minI64
      omega
    rw [if_neg (by omega), if_pos hcond, tdiv_sub_half_eq_roundAway hb ha]

/-! ### Multiplication overflow detection, utils.h lines 220-247

The source function recurses at most once, flipping signs so that both
operands become positive; the recursion is unrolled here: isMultOverflowP
is the final comparison line (against DEC_MAX_INT64 / value2), reached
exactly when both values are positive. -/

def isMultOverflowP (v1 v2 : Int) : Bool := decide (maxI64.tdiv v2 < v1)

def isMultOverflow (v1 v2 : Int) : Bool :=
  if v1 = 0 || v2 = 0 then false
  else if (decide (v1 < 0)) != (decide (v2 < 0)) then
    if v1 = minI64 then decide (1 < v2)
    else if v2 = minI64 then decide (1 < v1)
    else if v1 < 0 then isMultOverflowP (-v1) v2
    else isMultOverflowP v1 (-v2)
  else if v1 < 0 && v2 < 0 then
    if v1 = minI64 then decide (v2 < -1)
    else if v2 = minI64 then decide (v1 < -1)
    else isMultOverflowP (-v1) (-v2)
  else isMultOverflowP v1 v2

theorem isMultOverflowP_eq_false {v1 v2 : Int} (h1 : 0 < v1) (h2 : 0 < v2)
    (h : v1 * v2 ≤ maxI64) : isMultOverflowP v1 v2 = false := by
  unfold isMultOverflowP
  have hmx : (0 : Int) ≤ maxI64 := by unfold maxI64; omega
  have htd : maxI64.tdiv v2 = maxI64 / v2 := Int.tdiv_eq_ediv hmx h2.le
  rw [htd]
  simp only [decide_eq_false_iff_not, not_lt]
  exact (Int.le_ediv_iff_mul_le h2).mpr h

/-- The overflow test never fires when the product is representable;
this is what routes representable products to the exact path. -/
theorem isMultOverflow_eq_false {v1 v2 : Int} (h1 : v1 ≠ 0) (h2 : v2 ≠ 0)
    (h : (v1 * v2).natAbs ≤ 2 ^ 63 - 1) : isMultOverflow v1 v2 = false := by
  have hbound : v1.natAbs * v2.natAbs ≤ 2 ^ 63 - 1 := by
    rw [← Int.natAbs_mul]; exact h
  have hn1 : v1 ≠ minI64 := by
    intro hh
    subst hh
    have hA : (minI64 : Int).natAbs = 2 ^ 63 := by decide
    rw [hA] at hbound
    have hv : 1 ≤ v2.natAbs := by omega
    have hmono : 2 ^ 63 * 1 ≤ 2 ^ 63 * v2.natAbs := Nat.mul_le_mul_left _ hv
    omega
  have hn2 : v2 ≠ minI64 := by
    intro hh
    subst hh
    have hA : (minI64 : Int).natAbs = 2 ^ 63 := by decide
    rw [hA] at hbound
    have hv : 1 ≤ v1.natAbs := by omega
    have hmono : 2 ^ 63 * 1 ≤ 2 ^ 63 * v1.natAbs := Nat.mul_le_mul_left _ hv
    omega
  have hmab : ∀ x y : Int, 0 < x → 0 < y → x.natAbs * y.natAbs ≤ 2 ^ 63 - 1 →
      isMultOverflowP x y = false := by
    intro x y hx hy hxy
    apply isMultOverflowP_eq_false hx hy
    have hxynn : 0 ≤ x * y := by positivity
    have hcastmul : ((x * y).natAbs : Int) = x * y := Int.natAbs_of_nonneg hxynn
    have hc : (x * y).natAbs ≤ 2 ^ 63 - 1 := by rw [Int.natAbs_mul]; exact hxy
    unfold maxI64
    omega
  unfold isMultOverflow
  rw [if_neg (by simp [h1, h2])]
  rcases h1.lt_or_lt with hv1 | hv1 <;> rcases h2.lt_or_lt with hv2 | hv2
  · rw [if_neg (by simp; omega), if_pos (by simp [hv1, hv2]), if_neg hn1, if_neg hn2]
    apply hmab _ _ (by omega) (by omega)
    simpa using hbound
  · rw [if_pos (by simp; omega), if_neg hn1, if_neg hn2, if_pos hv1]
    apply hmab _ _ (by omega) hv2
    simpa using hbound
  · rw [if_pos (by simp; omega), if_neg hn1, if_neg hn2, if_neg (by omega)]
    apply hmab _ _ hv1 (by omega)
    simpa using hbound
  · rw [if_neg (by simp; omega), if_neg (by simp; omega)]
    exact hmab _ _ hv1 hv2 hbound

/-! ### Greatest common divisor helper, utils.h lines 270-278

The source is an iterative Euclidean loop on the raw signed values (it does
not take absolute values); the C remainder operator is Int.tmod. -/

def gcdLoop : Nat → Int → Int → Int
  | 0, _, b => b
  | fuel + 1, a, b => if a = 0 then b else gcdLoop fuel (b.tmod a) a

def gcdI (a b : Int) : Int :=
  gcdLoop (a.natAbs + 1) a b

theorem gcdLoop_irrel : ∀ (n fuel : Nat) (a b : Int), a.natAbs ≤ n → a.natAbs < fuel →
    gcdLoop fuel a b = gcdLoop (a.natAbs + 1) a b := by
  intro n
  induction n with
  | zero =>
      intro fuel a b hn hf
      have ha : a = 0 := Int.natAbs_eq_zero.mp (Nat.le_zero.mp hn)
      subst ha
      cases fuel with
      | zero => exact absurd hf (by simp)
      | succ f => simp [gcdLoop]
  | succ n ih =>
      intro fuel a b hn hf
      cases fuel with
      | zero => exact absurd hf (by omega)
      | succ f =>
          by_cases ha : a = 0
          · subst ha
            simp [gcdLoop]
          · have hlt : (b.tmod a).natAbs < a.natAbs := natAbs_tmod_lt ha
            have h1 : gcdLoop (f + 1) a b = gcdLoop f (b.tmod a) a := by
              simp [gcdLoop, ha]
            have h2 : gcdLoop (a.natAbs + 1) a b = gcdLoop a.natAbs (b.tmod a) a := by
              simp [gcdLoop, ha]
            rw [h1, h2, ih f (b.tmod a) a (by omega) (by omega),
                ih a.natAbs (b.tmod a) a (by omega) hlt]

theorem gcdI_eq (a b : Int) : gcdI a b = if a = 0 then b else gcdI (b.tmod a) a := by
  by_cases ha : a = 0
  · subst ha
    simp [gcdI, gcdLoop]
  · rw [if_neg ha]
    show gcdLoop (a.natAbs + 1) a b = gcdLoop ((b.tmod a).natAbs + 1) (b.tmod a) a
    have h2 : gcdLoop (a.natAbs + 1) a b = gcdLoop a.natAbs (b.tmod a) a := by
      simp [gcdLoop, ha]
    rw [h2]
    exact gcdLoop_irrel (b.tmod a).natAbs a.natAbs (b.tmod a) a le_rfl (natAbs_tmod_lt ha)

theorem gcdI_natAbs : ∀ a b : Int, (gcdI a b).natAbs = Nat.gcd a.natAbs b.natAbs
  | a, b => by
    rw [gcdI_eq]
    split
    · next h =>
        subst h
        simp
    · next h =>
        have hlt : (b.tmod a).natAbs < a.natAbs := natAbs_tmod_lt h
        rw [gcdI_natAbs (b.tmod a) a, natAbs_tmod]
        exact (Nat.gcd_rec a.natAbs b.natAbs).symm
termination_by a => a.natAbs
decreasing_by exact natAbs_tmod_lt (by assumption)

theorem gcdI_dvd_left (a b : Int) : gcdI a b ∣ a := by
  rw [← Int.natAbs_dvd_natAbs, gcdI_natAbs]
  exact Nat.gcd_dvd_left _ _

theorem gcdI_dvd_right (a b : Int) : gcdI a b ∣ b := by
  rw [← Int.natAbs_dvd_natAbs, gcdI_natAbs]
  exact Nat.gcd_dvd_right _ _

theorem gcdI_ne_zero_of_right {a b : Int} (hb : b ≠ 0) : gcdI a b ≠ 0 := by
  intro hh
  have := gcdI_dvd_right a b
  rw [hh] at this
  exact hb (zero_dvd_iff.mp this)

/-! ### The scaled multiply-divide kernel, utils.h lines 166-218

multDivAux follows the source control flow exactly.  Sum.inl r is a return
of r from one of the exact paths; Sum.inr (result, x, y, z) means control
reached the extended-precision floating fallback, with running result
result and with x * y / z the fractional quantity handed to the fallback.
multDivF closes the computation over an explicit fallback function, and
multDivCore is the fallback-free view used by exactness statements. -/

/-- One step of the minimalization block of multDiv: divide the operand and
the divisor by their greatest common divisor when it is not 1. -/
def reduce1 (x d : Int) : Int × Int :=
  let c := gcdI x d
  if c ≠ 1 then (x.tdiv c, d.tdiv c) else (x, d)

theorem reduce1_spec (x d : Int) (hd : d ≠ 0) :
    (reduce1 x d).2 ≠ 0 ∧ (reduce1 x d).1 * d = x * (reduce1 x d).2 := by
  unfold reduce1
  have hc : gcdI x d ≠ 0 := gcdI_ne_zero_of_right hd
  by_cases h1 : gcdI x d ≠ 1
  · rw [if_pos h1]
    obtain ⟨x1, hx⟩ := gcdI_dvd_left x d
    obtain ⟨d1, hdv⟩ := gcdI_dvd_right x d
    have hxq : x.tdiv (gcdI x d) = x1 := Int.tdiv_eq_of_eq_mul_right hc hx
    have hdq : d.tdiv (gcdI x d) = d1 := Int.tdiv_eq_of_eq_mul_right hc hdv
    refine ⟨?_, ?_⟩
    · simp only [hdq]
      intro hh
      apply hd
      rw [hdv, hh, mul_zero]
    · simp only [hxq, hdq]
      linear_combination x1 * hdv - d1 * hx
  · rw [if_neg h1]
    exact ⟨hd, rfl⟩

def multDivAux (value1 value2 divisor : Int) : Int ⊕ (Int × Int × Int × Int) :=
  let value1int := value1.tdiv divisor
  let value1dec := value1.tmod divisor
  let value2int := value2.tdiv divisor
  let value2dec := value2.tmod divisor
  let result := value1 * value2int + value1int * value2dec
  if value1dec = 0 ∨ value2dec = 0 then Sum.inl result
  else if isMultOverflow value1dec value2dec = false then
    Sum.inl (result + (div_rounded (value1dec * value2dec) divisor).getD 0)
  else
    let p1 := reduce1 value1dec divisor
    let p2 := reduce1 value2dec p1.2
    if isMultOverflow p1.1 p2.1 = false then
      match div_rounded (p1.1 * p2.1) p2.2 with
      | some o => Sum.inl (result + o)
      | none => Sum.inr (result, p1.1, p2.1, p2.2)
    else Sum.inr (result, p1.1, p2.1, p2.2)

/-- multDiv with the floating fallback abstracted as a function parameter. -/
def multDivF (fb : Int → Int → Int → Int) (value1 value2 divisor : Int) : Int :=
  match multDivAux value1 value2 divisor with
  | Sum.inl r => r
  | Sum.inr (result, x, y, z) => result + fb x y z

/-- multDiv restricted to the exact integer paths: none when the source
would use the extended-precision floating fallback. -/
def multDivCore (value1 value2 divisor : Int) : Option Int :=
  match multDivAux value1 value2 divisor with
  | Sum.inl r => some r
  | Sum.inr _ => none

theorem roundAway_mul_exact (k d : Int) (hd : d ≠ 0) : roundAway (k * d) d = k := by
  have hsgn : (0 ≤ k * d + 0 ∧ (0 : Int) ≤ 0) ∨ (k * d + 0 ≤ 0 ∧ (0 : Int) ≤ 0) := by
    rcases le_total 0 (k * d) with h | h
    · exact Or.inl ⟨by simpa using h, le_refl 0⟩
    · exact Or.inr ⟨by simpa using h, le_refl 0⟩
  have := roundAway_mul_add (k := k) (r := 0) hd
    (by rcases hsgn with ⟨h1, h2⟩ | ⟨h1, h2⟩
        · exact Or.inl ⟨h1, h2⟩
        · exact Or.inr ⟨h1, by omega⟩)
  rw [roundAway_zero_left d hd] at this
  simpa using this

theorem tmod_sign_compat (a b d : Int) :
    (0 ≤ a * b ∧ 0 ≤ a.tmod d * b.tmod d) ∨
    (a * b ≤ 0 ∧ a.tmod d * b.tmod d ≤ 0) := by
  rcases le_total 0 a with ha | ha <;> rcases le_total 0 b with hb | hb
  · exact Or.inl ⟨mul_nonneg ha hb,
      mul_nonneg (Int.tmod_nonneg d ha) (Int.tmod_nonneg d hb)⟩
  · refine Or.inr ⟨by nlinarith, ?_⟩
    have h1 := Int.tmod_nonneg d ha
    have h2 := tmod_nonpos (a := b) d hb
    nlinarith
  · refine Or.inr ⟨by nlinarith, ?_⟩
    have h1 := tmod_nonpos (a := a) d ha
    have h2 := Int.tmod_nonneg d hb
    nlinarith
  · refine Or.inl ⟨by nlinarith, ?_⟩
    have h1 := tmod_nonpos (a := a) d ha
    have h2 := tmod_nonpos (a := b) d hb
    nlinarith

/-- Exactness of the kernel on its first path: whenever the product plus
the half-divisor correction is representable in 64 bits, the kernel never
reaches the floating fallback and returns the exactly rounded quotient. -/
theorem multDivCore_exact {a b d : Int} (hd : d ≠ 0)
    (hbound : (a * b).natAbs + d.natAbs / 2 ≤ 2 ^ 63 - 1) :
    multDivCore a b d = some (roundAway (a * b) d) := by
  simp only [multDivCore, multDivAux]
  have hA := Int.tdiv_add_tmod a d
  have hB := Int.tdiv_add_tmod b d
  have hkey : a * b = (a * b.tdiv d + a.tdiv d * b.tmod d) * d + a.tmod d * b.tmod d := by
    linear_combination (-a) * hB - (b.tmod d) * hA
  by_cases hz : a.tmod d = 0 ∨ b.tmod d = 0
  · rw [if_pos hz]
    have hp0 : a.tmod d * b.tmod d = 0 := by
      rcases hz with h | h <;> simp [h]
    rw [hp0, add_zero] at hkey
    rw [hkey, roundAway_mul_exact _ _ hd]
  · push_neg at hz
    have hple : (a.tmod d * b.tmod d).natAbs ≤ (a * b).natAbs := by
      rw [Int.natAbs_mul, Int.natAbs_mul]
      exact Nat.mul_le_mul (natAbs_tmod_le a d) (natAbs_tmod_le b d)
    have hover : isMultOverflow (a.tmod d) (b.tmod d) = false :=
      isMultOverflow_eq_false hz.1 hz.2 (by omega)
    rw [if_neg (by tauto), if_pos hover]
    have hdr : div_rounded (a.tmod d * b.tmod d) d =
        some (roundAway (a.tmod d * b.tmod d) d) :=
      div_rounded_eq_roundAway hd (by omega)
    rw [hdr]
    have hsgn := tmod_sign_compat a b d
    rw [hkey] at hsgn
    have hshift := roundAway_mul_add (k := a * b.tdiv d + a.tdiv d * b.tmod d)
      (r := a.tmod d * b.tmod d) hd hsgn
    rw [hkey, hshift]
    simp

theorem multDivAux_inr {a b d : Int} (hd : d ≠ 0) {res x y z : Int}
    (h : multDivAux a b d = Sum.inr (res, x, y, z)) :
    res = a * b.tdiv d + a.tdiv d * b.tmod d ∧ z ≠ 0 ∧
    x * y * d = a.tmod d * b.tmod d * z := by
  have h1 := reduce1_spec (a.tmod d) d hd
  have h2 := reduce1_spec (b.tmod d) (reduce1 (a.tmod d) d).2 h1.1
  simp only [multDivAux] at h
  split_ifs at h with hz hov hov2
  · split at h
    · exact absurd h (by simp)
    · simp only [Sum.inr.injEq, Prod.mk.injEq] at h
      obtain ⟨hres, hx, hy, hz2⟩ := h
      subst hres hx hy hz2
      refine ⟨rfl, h2.1, ?_⟩
      linear_combination (reduce1 (b.tmod d) (reduce1 (a.tmod d) d).2).1 * h1.2
        + (a.tmod d) * h2.2
  · simp only [Sum.inr.injEq, Prod.mk.injEq] at h
    obtain ⟨hres, hx, hy, hz2⟩ := h
    subst hres hx hy hz2
    refine ⟨rfl, h2.1, ?_⟩
    linear_combination (reduce1 (b.tmod d) (reduce1 (a.tmod d) d).2).1 * h1.2
      + (a.tmod d) * h2.2

/-- When the kernel reaches the extended-precision floating fallback, the
reduced triple it hands over represents exactly the fractional remainder of
the computation, the running result is exact, and the fallback value is
added to it; no error is ever produced. -/
theorem multDiv_fallback_recovery (a b d : Int) (hd : d ≠ 0)
    (h : multDivCore a b d = none) :
    ∃ x y z : Int, z ≠ 0 ∧ x * y * d = a.tmod d * b.tmod d * z ∧
      a * b = d * (a * b.tdiv d + a.tdiv d * b.tmod d) + a.tmod d * b.tmod d ∧
      ∀ fb : Int → Int → Int → Int,
        multDivF fb a b d = (a * b.tdiv d + a.tdiv d * b.tmod d) + fb x y z := by
  have hkey : a * b = d * (a * b.tdiv d + a.tdiv d * b.tmod d) + a.tmod d * b.tmod d := by
    have hA := Int.tdiv_add_tmod a d
    have hB := Int.tdiv_add_tmod b d
    linear_combination (-a) * hB - (b.tmod d) * hA
  unfold multDivCore at h
  cases haux : multDivAux a b d with
  | inl r => rw [haux] at h; exact absurd h (by simp)
  | inr q =>
      obtain ⟨res, x, y, z⟩ := q
      obtain ⟨hres, hz, hprod⟩ := multDivAux_inr hd haux
      refine ⟨x, y, z, hz, hprod, hkey, ?_⟩
      intro fb
      unfold multDivF
      rw [haux, hres]


/-! ### Power-of-ten lookups

pow10 (utils.h lines 249-261) has a 19-entry table and returns 0 outside
0..18.  getPrecFactorInt64 (fixed.h lines 1243-1266, runtime-precision
variant) has only 18 entries (the 10^18 row is absent) and performs no
bounds check; an index outside 0..17 reads past the table, which the model
reports as none. -/

def decimalFactorTable : List Int := [1, 10, 100, 1000, 10000, 100000, 1000000, 10000000, 100000000, 1000000000, 10000000000, 100000000000, 1000000000000, 10000000000000, 100000000000000, 1000000000000000, 10000000000000000, 100000000000000000, 1000000000000000000]

def pow10 (n : Int) : Int :=
  if 0 ≤ n ∧ n ≤ 18 then decimalFactorTable.getD n.toNat 0 else 0

def precFactorMas : List Int := [1,
    10,
    100,
    1000,
    10000,
    100000,
    1000000,
    10000000,
    100000000,
    1000000000,
    10000000000,
    100000000000,
    1000000000000,
    10000000000000,
    100000000000000,
    1000000000000000,
    10000000000000000,
    100000000000000000]

def getPrecFactorInt64 (prec : Int) : Option Int :=
  if 0 ≤ prec ∧ prec < 18 then some (precFactorMas.getD prec.toNat 0) else none

/-! ### The static-precision decimal value type (fixed.h, decimal_st)

A decimal_st value of precision p is its raw 64-bit payload m_value; the
precision factor DecimalFactor is 10^p. -/

def decimalFactor (p : Nat) : Int := 10 ^ p

/-- Construction from an integer: m_value = DecimalFactor * value. -/
def decimalCastInt (p : Nat) (v : Int) : Int := decimalFactor p * v

/-- Division of two same-precision decimal_st values (fixed.h lines
413-419): multDiv(lhs.m_value, DecimalFactor, rhs.m_value).  The Option is
none when multDiv would use the floating fallback. -/
def stDiv (p : Nat) (lhs rhs : Int) : Option Int :=
  multDivCore lhs (decimalFactor p) rhs

/-- The sign accessor (fixed.h lines 464-470). -/
def signST (v : Int) : Int := if 0 < v then 1 else if v < 0 then -1 else 0

/-- The absolute-value operation (fixed.h lines 516-521): a nonnegative
value is returned as is; otherwise the result is decimal(0) - *this, whose
raw subtraction 0 - m_value is 64-bit arithmetic and therefore wraps. -/
def absST (v : Int) : Int := if 0 ≤ v then v else wrap64 (0 - v)

/-- Unpack (fixed.h lines 537-540): split the raw value into the parts
before and after the decimal point. -/
def unpackST (p : Nat) (m : Int) : Int × Int :=
  let afterValue := m.tmod (decimalFactor p)
  ((m - afterValue).tdiv (decimalFactor p), afterValue)

/-- Pack (fixed.h lines 548-555): recombine the two parts. -/
def packST (p : Nat) (beforeValue afterValue : Int) : Int :=
  if 0 < p then beforeValue * decimalFactor p + afterValue.tmod (decimalFactor p)
  else beforeValue * decimalFactor p

/-! ### Cross-precision addition of the runtime-precision variant
(fixed.h lines 922-955)

The source indexes getPrecFactorInt64 with the difference of the raw
values (other.m_value - this->m_value), not of the precisions, and it
ignores the boolean result of div_rounded (which writes 0 on failure). -/

def divRoundedVal (a b : Int) : Int := (div_rounded a b).getD 0

/-- decimal_rt operator+ (and the identical operator+=): lv, lp are the
left operand's m_value and m_prec, rv, rp the right operand's; the result
keeps precision lp.  none models the undefined out-of-table read. -/
def rtAdd (lv lp rv rp : Int) : Option Int :=
  if lp < rp then (getPrecFactorInt64 (rv - lv)).map (fun f => lv + divRoundedVal rv f)
  else if rp = lp then some (lv + rv)
  else (getPrecFactorInt64 (lv - rv)).map (fun f => lv + rv * f)

/-- Modelled from the spec: cross-precision addition as section 4.3 of the
specification describes it, rescaling by the precision-factor difference
10^(Q-P) (Policy-rounded narrowing) or 10^(P-Q) (exact widening).  This is
the comparison definition for the refinement claim about operator+. -/
def rtAddSpec (lv lp rv rp : Int) : Int :=
  if lp < rp then lv + divRoundedVal rv (pow10 (rp - lp))
  else if rp = lp then lv + rv
  else lv + rv * pow10 (lp - rp)

/-! ### The text codec (utils.h lines 589-787)

Characters are processed one at a time by the scanner parse_unpacked; the
locale is the classic "C" locale: decimal point '.', no thousands grouping
(so the grouping branch of the scanner is never taken).  When the stream is
exhausted the source's input.get() returns EOF, which arrives in the
scanner as the char cast of -1; the scanner processes that character once
and the loop then stops on the failed stream.  eofC models that character;
the only property used of it is that it is not a digit, sign, point, space
or tab. -/

inductive PState where
  | sgn | bfd | bdec | adec | fin
deriving DecidableEq

structure ParseSt where
  st : PState
  sgnV : Int
  before : Int
  after : Int
  digits : Nat
  adigits : Nat
  err : Int
deriving DecidableEq

def dpointC : Char := '.'

def eofC : Char := Char.ofNat 255

def isDig (c : Char) : Bool := decide ('0' ≤ c ∧ c ≤ '9')

def dval (c : Char) : Int := (c.toNat : Int) - 48

/-- One step of the scanner's switch statement (utils.h lines 658-718). -/
def pstep (c : Char) (s : ParseSt) : ParseSt :=
  match s.st with
  | PState.sgn =>
      if c = '-' then { s with sgnV := -1, st := PState.bfd }
      else if c = '+' then { s with st := PState.bfd }
      else if isDig c then
        { s with st := PState.bdec, before := dval c, digits := s.digits + 1 }
      else if c = dpointC then { s with st := PState.adec }
      else if c ≠ ' ' ∧ c ≠ '\t' then { s with st := PState.fin, err := -1 }
      else s
  | PState.bfd =>
      if isDig c then
        { s with before := 10 * s.before + dval c, st := PState.bdec,
                 digits := s.digits + 1 }
      else if c = dpointC then { s with st := PState.adec }
      else { s with st := PState.fin, err := -1 }
  | PState.bdec =>
      if isDig c then
        { s with before := 10 * s.before + dval c, digits := s.digits + 1 }
      else if c = dpointC then { s with st := PState.adec }
      else { s with st := PState.fin }
  | PState.adec =>
      if isDig c then
        let s2 := { s with after := 10 * s.after + dval c, adigits := s.adigits + 1 }
        if 18 ≤ s2.adigits then { s2 with st := PState.fin } else s2
      else if s.digits = 0 then { s with st := PState.fin, err := -2 }
      else { s with st := PState.fin }
  | PState.fin => s

def initPs : ParseSt :=
  { st := PState.sgn, sgnV := 1, before := 0, after := 0,
    digits := 0, adigits := 0, err := 0 }

/-- The while loop: one pstep per extracted character, stopping at IN_END. -/
def pfold (cs : List Char) (s : ParseSt) : ParseSt :=
  cs.foldl (fun s c => if s.st = PState.fin then s else pstep c s) s

/-- Run the scanner loop over the input, including the final iteration on
the EOF character when the input runs out before IN_END is reached. -/
def runParse (cs : List Char) : ParseSt :=
  let s := pfold cs initPs
  if s.st = PState.fin then s else pstep eofC s

/-- parse_unpacked (utils.h lines 626-735): scanner plus the sign fixup
and the reset-to-zero on error; the Bool is the success flag. -/
def parse_unpacked (cs : List Char) : Bool × Int × Int × Nat :=
  let s := runParse cs
  if 0 ≤ s.err then
    (true, (if s.sgnV < 0 then -s.before else s.before),
      (if s.sgnV < 0 then -s.after else s.after), s.adigits)
  else (false, 0, 0, s.adigits)

/-- fromStream (utils.h lines 756-787) at precision p.  conv models the
decimal(value, precFactor) constructor used by the rounding mode (whose
implementation converts through extended-precision floating point); the
direct mode never invokes it. -/
def fromStr (p : Nat) (conv : Int → Int → Int) (cs : List Char) : Bool × Int :=
  let r := parse_unpacked cs
  if r.1 then
    if r.2.2.2 ≤ p then
      (true, packST p r.2.1 (r.2.2.1 * 10 ^ (p - r.2.2.2)))
    else
      (true, conv (r.2.1 * 10 ^ r.2.2.2 + r.2.2.1) (10 ^ r.2.2.2))
  else (false, 0)

/-- Decimal digit string of a natural number, most significant first, as
the stream insertion operator for int64 prints it. -/
def digitsOf (n : Nat) : List Char :=
  if n < 10 then [Nat.digitChar n]
  else digitsOf (n / 10) ++ [Nat.digitChar (n % 10)]
termination_by n
decreasing_by exact Nat.div_lt_self (by omega) (by omega)

/-- Left zero-padding to a minimum width, as setw/setfill produce. -/
def padL (w : Nat) (ds : List Char) : List Char :=
  List.replicate (w - ds.length) '0' ++ ds

/-- The stream insertion operator for an int64 value: a minus sign when
the value is negative, then the decimal digits of its magnitude. -/
def intStr (v : Int) : List Char :=
  if v < 0 then '-' :: digitsOf v.natAbs else digitsOf v.toNat

/-- toStream (utils.h lines 589-620) at precision p: unpack, sign fixup,
integer part, then the decimal point and the zero-padded fraction when the
precision is positive.  The negations before = -before and after = -after
are int64 negations and therefore wrap at INT64_MIN (modelled by wrap64),
so a still-negative part prints its own minus sign after the one already
emitted. -/
def toStr (p : Nat) (m : Int) : List Char :=
  let parts := unpackST p m
  let b1 := if parts.1 < 0 then wrap64 (-parts.1) else parts.1
  let a1 := if parts.2 < 0 then wrap64 (-parts.2) else parts.2
  (if parts.1 < 0 ∨ parts.2 < 0 then ['-'] else []) ++
    intStr b1 ++
    (if 0 < p then dpointC :: padL p (intStr a1) else [])

/-! ### Digit strings and their read-back -/

/-- The scanner's decimal accumulator: shift-and-add over a character run. -/
def accD (z : Int) (cs : List Char) : Int :=
  cs.foldl (fun acc c => 10 * acc + dval c) z

theorem accD_nil (z : Int) : accD z [] = z := rfl

theorem accD_cons (z : Int) (c : Char) (cs : List Char) :
    accD z (c :: cs) = accD (10 * z + dval c) cs := rfl

theorem accD_append (z : Int) (xs ys : List Char) :
    accD z (xs ++ ys) = accD (accD z xs) ys := by
  unfold accD
  exact List.foldl_append _ _ _ _

theorem dval_digitChar {k : Nat} (h : k < 10) : dval (Nat.digitChar k) = (k : Int) := by
  interval_cases k <;> decide

theorem isDig_digitChar {k : Nat} (h : k < 10) : isDig (Nat.digitChar k) = true := by
  interval_cases k <;> decide

theorem digitsOf_ne_nil (n : Nat) : digitsOf n ≠ [] := by
  rw [digitsOf]
  split <;> simp

theorem digitsOf_all_dig : ∀ n : Nat, ∀ c ∈ digitsOf n, isDig c = true
  | n, c, hc => by
    rw [digitsOf] at hc
    split at hc
    · next h =>
        simp only [List.mem_singleton] at hc
        subst hc
        exact isDig_digitChar h
    · next h =>
        rw [List.mem_append] at hc
        rcases hc with hc | hc
        · exact digitsOf_all_dig (n / 10) c hc
        · simp only [List.mem_singleton] at hc
          subst hc
          exact isDig_digitChar (Nat.mod_lt _ (by omega))
termination_by n => n
decreasing_by exact Nat.div_lt_self (by omega) (by omega)

theorem accD_digitsOf : ∀ (n : Nat) (z : Int),
    accD z (digitsOf n) = z * 10 ^ (digitsOf n).length + n
  | n, z => by
    rw [digitsOf]
    split
    · next h =>
        rw [accD_cons, accD_nil, dval_digitChar h]
        simp
        ring
    · next h =>
        rw [accD_append, accD_digitsOf (n / 10) z, accD_cons, accD_nil,
          dval_digitChar (Nat.mod_lt _ (by omega))]
        have hlen : (digitsOf (n / 10) ++ [Nat.digitChar (n % 10)]).length
            = (digitsOf (n / 10)).length + 1 := by simp
        rw [hlen]
        have hsplit : (n : Int) = 10 * (n / 10 : Nat) + (n % 10 : Nat) := by
          push_cast
          omega
        rw [pow_succ]
        rw [hsplit]
        ring
termination_by n => n
decreasing_by exact Nat.div_lt_self (by omega) (by omega)

theorem accD_zero_digitsOf (n : Nat) : accD 0 (digitsOf n) = n := by
  rw [accD_digitsOf]
  ring

theorem digitsOf_length_le : ∀ n k : Nat, 1 ≤ k → n < 10 ^ k → (digitsOf n).length ≤ k
  | n, k, hk, h => by
    rw [digitsOf]
    split
    · next hh => simpa using hk
    · next hh =>
        have hk2 : 2 ≤ k := by
          by_contra hcon
          have : k = 1 := by omega
          subst this
          simp at h
          omega
        have hstep : n / 10 < 10 ^ (k - 1) := by
          have h10 : 10 ^ k = 10 ^ (k - 1) * 10 := by
            rw [← pow_succ]
            congr 1
            omega
          rw [h10] at h
          omega
        have := digitsOf_length_le (n / 10) (k - 1) (by omega) hstep
        simp only [List.length_append, List.length_singleton]
        omega
termination_by n => n
decreasing_by exact Nat.div_lt_self (by omega) (by omega)

theorem accD_replicate_zero (z : Int) : ∀ k : Nat, accD 0 (List.replicate k '0') = 0
  | 0 => rfl
  | k + 1 => by
      rw [List.replicate_succ, accD_cons]
      have : (10 : Int) * 0 + dval '0' = 0 := by decide
      rw [this]
      exact accD_replicate_zero z k

theorem accD_padL (w : Nat) (n : Nat) : accD 0 (padL w (digitsOf n)) = n := by
  unfold padL
  rw [accD_append, accD_replicate_zero 0, accD_zero_digitsOf]

theorem padL_all_dig (w : Nat) (n : Nat) :
    ∀ c ∈ padL w (digitsOf n), isDig c = true := by
  intro c hc
  unfold padL at hc
  rw [List.mem_append] at hc
  rcases hc with hc | hc
  · have := List.eq_of_mem_replicate hc
    subst this
    decide
  · exact digitsOf_all_dig n c hc

theorem padL_length {w : Nat} {ds : List Char} (h : ds.length ≤ w) :
    (padL w ds).length = w := by
  unfold padL
  simp
  omega

theorem isDig_ne {c : Char} (h : isDig c = true) :
    c ≠ '-' ∧ c ≠ '+' ∧ c ≠ dpointC := by
  refine ⟨?_, ?_, ?_⟩ <;> intro hh <;> subst hh <;> exact absurd h (by decide)

theorem ParseSt.ext_eq {s t : ParseSt} (h1 : s.st = t.st) (h2 : s.sgnV = t.sgnV)
    (h3 : s.before = t.before) (h4 : s.after = t.after) (h5 : s.digits = t.digits)
    (h6 : s.adigits = t.adigits) (h7 : s.err = t.err) : s = t := by
  cases s
  cases t
  simp_all

theorem pfold_bdec (cs : List Char) (hall : ∀ c ∈ cs, isDig c = true) :
    ∀ s : ParseSt, s.st = PState.bdec →
    pfold cs s = { s with before := accD s.before cs, digits := s.digits + cs.length } := by
  induction cs with
  | nil =>
      intro s hs
      apply ParseSt.ext_eq <;> simp [pfold, accD_nil]
  | cons c cs ih =>
      intro s hs
      have hc : isDig c = true := hall c (List.mem_cons_self c cs)
      have hrest : ∀ x ∈ cs, isDig x = true := fun x hx => hall x (List.mem_cons_of_mem c hx)
      have hstep : pfold (c :: cs) s = pfold cs (pstep c s) := by
        simp only [pfold, List.foldl_cons]
        congr 1
        rw [if_neg (by rw [hs]; decide)]
      have hps : pstep c s =
          { s with before := 10 * s.before + dval c, digits := s.digits + 1 } := by
        simp only [pstep, hs]
        rw [if_pos hc]
      rw [hstep, hps, ih hrest _ (by simpa using hs)]
      apply ParseSt.ext_eq <;> simp [accD_cons]
      omega

theorem pfold_adec (cs : List Char) (hall : ∀ c ∈ cs, isDig c = true) :
    ∀ s : ParseSt, s.st = PState.adec → s.adigits < 18 → s.adigits + cs.length ≤ 18 →
    pfold cs s = { s with
                   after := accD s.after cs,
                   adigits := s.adigits + cs.length,
                   st := (if s.adigits + cs.length = 18 then PState.fin else PState.adec) } := by
  induction cs with
  | nil =>
      intro s hs hlt hcap
      apply ParseSt.ext_eq <;> simp [pfold, accD_nil]
      rw [if_neg (by omega)]
      exact hs
  | cons c cs ih =>
      intro s hs hlt hcap
      rw [List.length_cons] at hcap
      have hc : isDig c = true := hall c (List.mem_cons_self c cs)
      have hrest : ∀ x ∈ cs, isDig x = true := fun x hx => hall x (List.mem_cons_of_mem c hx)
      have hstep : pfold (c :: cs) s = pfold cs (pstep c s) := by
        simp only [pfold, List.foldl_cons]
        congr 1
        rw [if_neg (by rw [hs]; decide)]
      by_cases hhit : s.adigits + 1 = 18
      · have hcs : cs = [] := by
          have : cs.length = 0 := by omega
          exact List.eq_nil_of_length_eq_zero this
        subst hcs
        have hps : pstep c s =
            { s with after := 10 * s.after + dval c, adigits := s.adigits + 1,
                     st := PState.fin } := by
          simp only [pstep, hs]
          rw [if_pos hc, if_pos (by omega : 18 ≤ s.adigits + 1)]
        rw [hstep, hps]
        apply ParseSt.ext_eq <;> simp [pfold, accD_cons, accD_nil]
        rw [if_pos (by omega)]
      · have hps : pstep c s =
            { s with after := 10 * s.after + dval c, adigits := s.adigits + 1 } := by
          simp only [pstep, hs]
          rw [if_pos hc, if_neg (by omega : ¬ 18 ≤ s.adigits + 1)]
        rw [hstep, hps, ih hrest _ (by simpa using hs) (by simp; omega) (by simp; omega)]
        have harith : s.adigits + 1 + cs.length = s.adigits + (cs.length + 1) := by omega
        apply ParseSt.ext_eq <;> simp [accD_cons, harith]

theorem pfold_cons_step {c : Char} {s : ParseSt} (h : ¬ s.st = PState.fin)
    (cs : List Char) : pfold (c :: cs) s = pfold cs (pstep c s) := by
  simp only [pfold, List.foldl_cons]
  congr 1
  rw [if_neg h]

theorem pfold_append_split (xs ys : List Char) (s : ParseSt) :
    pfold (xs ++ ys) s = pfold ys (pfold xs s) := by
  simp only [pfold, List.foldl_append]

/-- Running the scanner over a digit string from the start state (or from
just after a sign) accumulates exactly that number into the integer part
and leaves the machine in the in-number state. -/
theorem pfold_digits_from (b : Nat) (s : ParseSt)
    (hs : s.st = PState.sgn ∨ s.st = PState.bfd) (hb : s.before = 0) :
    pfold (digitsOf b) s =
      { s with st := PState.bdec, before := (b : Int),
               digits := s.digits + (digitsOf b).length } := by
  obtain ⟨d0, rest, hcons⟩ := List.exists_cons_of_ne_nil (digitsOf_ne_nil b)
  have halld := digitsOf_all_dig b
  rw [hcons] at halld
  have hd0 : isDig d0 = true := halld d0 (List.mem_cons_self d0 rest)
  have hrest : ∀ x ∈ rest, isDig x = true := fun x hx => halld x (List.mem_cons_of_mem d0 hx)
  have hstate : ¬ s.st = PState.fin := by rcases hs with h | h <;> rw [h] <;> decide
  have hacc : accD 0 (digitsOf b) = (b : Nat) := accD_zero_digitsOf b
  rw [hcons] at hacc
  rw [hcons, pfold_cons_step hstate]
  have hps : pstep d0 s =
      { s with st := PState.bdec, before := dval d0, digits := s.digits + 1 } := by
    rcases hs with h | h
    · simp only [pstep, h]
      rw [if_neg (isDig_ne hd0).1, if_neg (isDig_ne hd0).2.1, if_pos hd0]
    · simp only [pstep, h]
      rw [if_pos hd0, hb]
      apply ParseSt.ext_eq <;> simp
  rw [hps, pfold_bdec rest hrest _ (by simp)]
  apply ParseSt.ext_eq <;> simp
  · rw [accD_cons] at hacc
    rw [← hacc]
    norm_num
  · omega

theorem pstep_point_bdec {t : ParseSt} (ht : t.st = PState.bdec) :
    pstep dpointC t = { t with st := PState.adec } := by
  simp only [pstep, ht]
  rw [if_neg (by decide : ¬ isDig dpointC = true)]
  simp

theorem pstep_eof_bdec {t : ParseSt} (ht : t.st = PState.bdec) :
    pstep eofC t = { t with st := PState.fin } := by
  simp only [pstep, ht]
  rw [if_neg (by decide : ¬ isDig eofC = true), if_neg (by decide : ¬ eofC = dpointC)]

theorem pstep_eof_adec {t : ParseSt} (ht : t.st = PState.adec) (hd : ¬ t.digits = 0) :
    pstep eofC t = { t with st := PState.fin } := by
  simp only [pstep, ht]
  rw [if_neg (by decide : ¬ isDig eofC = true), if_neg hd]

/-- Scanner run over integer digits, point and padded fraction digits,
starting from the sign state or just after a consumed sign. -/
theorem parse_core (b a p : Nat) (hp : p ≤ 18) (hp0 : 0 < p)
    (ha : (digitsOf a).length ≤ p) (s : ParseSt)
    (hs : s.st = PState.sgn ∨ s.st = PState.bfd) (h0 : s.before = 0)
    (h1 : s.after = 0) (h2 : s.adigits = 0) :
    pfold (digitsOf b ++ dpointC :: padL p (digitsOf a)) s =
      { s with
        st := (if p = 18 then PState.fin else PState.adec),
        before := (b : Int),
        after := (a : Int),
        digits := s.digits + (digitsOf b).length,
        adigits := p } := by
  have hlenpad : (padL p (digitsOf a)).length = p := padL_length ha
  have hacc : accD 0 (padL p (digitsOf a)) = (a : Int) := accD_padL p a
  rw [pfold_append_split, pfold_digits_from b s hs h0]
  rw [pfold_cons_step (by simp), pstep_point_bdec (by simp)]
  rw [pfold_adec _ (padL_all_dig p a) _ (by simp) (by simp [h2]) (by simp [h2, hlenpad]; omega)]
  apply ParseSt.ext_eq <;> simp [hlenpad, h1, h2, hacc]

/-- Parsing a formatted number with a fractional part: optional minus,
integer digits, decimal point, exactly p (padded) fraction digits. -/
theorem parse_fmt (neg : Bool) (b a p : Nat) (hp : p ≤ 18) (hp0 : 0 < p)
    (ha : (digitsOf a).length ≤ p) :
    parse_unpacked ((if neg then ['-'] else []) ++
        (digitsOf b ++ dpointC :: padL p (digitsOf a))) =
      (true, (if neg then -(b : Int) else (b : Int)),
        (if neg then -(a : Int) else (a : Int)), p) := by
  have hdig1 : 1 ≤ (digitsOf b).length := by
    cases hd : digitsOf b with
    | nil => exact absurd hd (digitsOf_ne_nil b)
    | cons x xs => simp
  have hrp : runParse ((if neg then ['-'] else []) ++
      (digitsOf b ++ dpointC :: padL p (digitsOf a))) =
      { st := PState.fin,
        sgnV := (if neg then -1 else 1),
        before := (b : Int),
        after := (a : Int),
        digits := (digitsOf b).length,
        adigits := p,
        err := 0 } := by
    simp only [runParse]
    have hpf : pfold ((if neg then ['-'] else []) ++
        (digitsOf b ++ dpointC :: padL p (digitsOf a))) initPs =
        { st := (if p = 18 then PState.fin else PState.adec),
          sgnV := (if neg then -1 else 1),
          before := (b : Int),
          after := (a : Int),
          digits := (digitsOf b).length,
          adigits := p,
          err := 0 } := by
      cases neg
      · simp only [Bool.false_eq_true, if_neg (by simp : ¬ False), List.nil_append]
        rw [parse_core b a p hp hp0 ha initPs (Or.inl (by decide)) (by decide) (by decide)
          (by decide)]
        apply ParseSt.ext_eq <;> simp [initPs]
      · simp only [if_pos trivial]
        rw [List.singleton_append, pfold_cons_step (by decide : ¬ initPs.st = PState.fin)]
        rw [parse_core b a p hp hp0 ha (pstep '-' initPs) (Or.inr (by decide)) (by decide)
          (by decide) (by decide)]
        apply ParseSt.ext_eq <;> simp [pstep, initPs]
    rw [hpf]
    by_cases hp18 : p = 18
    · split
      · next hcond => apply ParseSt.ext_eq <;> simp [hp18]
      · next hcond => exact absurd (by simp [hp18]) hcond
    · split
      · next hcond => exact absurd hcond hp18
      · next hcond =>
          rw [pstep_eof_adec (by simp [hp18]) (by show ¬ (digitsOf b).length = 0; omega)]
          apply ParseSt.ext_eq <;> simp [hp18]
  simp only [parse_unpacked, hrp]
  cases neg
  · simp
  · norm_num

/-- Parsing a formatted number with no fractional part (precision 0). -/
theorem parse_fmt0 (neg : Bool) (b : Nat) :
    parse_unpacked ((if neg then ['-'] else []) ++ digitsOf b) =
      (true, (if neg then -(b : Int) else (b : Int)), 0, 0) := by
  have hrp : runParse ((if neg then ['-'] else []) ++ digitsOf b) =
      { st := PState.fin,
        sgnV := (if neg then -1 else 1),
        before := (b : Int),
        after := 0,
        digits := (digitsOf b).length,
        adigits := 0,
        err := 0 } := by
    simp only [runParse]
    have hpf : pfold ((if neg then ['-'] else []) ++ digitsOf b) initPs =
        { st := PState.bdec,
          sgnV := (if neg then -1 else 1),
          before := (b : Int),
          after := 0,
          digits := (digitsOf b).length,
          adigits := 0,
          err := 0 } := by
      cases neg
      · simp only [Bool.false_eq_true, if_neg (by simp : ¬ False), List.nil_append]
        rw [pfold_digits_from b initPs (Or.inl (by decide)) (by decide)]
        apply ParseSt.ext_eq <;> simp [initPs]
      · simp only [if_pos trivial]
        rw [List.singleton_append, pfold_cons_step (by decide : ¬ initPs.st = PState.fin)]
        rw [pfold_digits_from b (pstep '-' initPs) (Or.inr (by decide)) (by decide)]
        apply ParseSt.ext_eq <;> simp [pstep, initPs]
    have hne : ¬ (pfold ((if neg then ['-'] else []) ++ digitsOf b) initPs).st
        = PState.fin := by
      rw [hpf]
      simp
    rw [if_neg hne, hpf, pstep_eof_bdec (by simp)]
  simp only [parse_unpacked, hrp]
  cases neg
  · simp
  · norm_num

theorem natAbs_decimalFactor (p : Nat) : (decimalFactor p).natAbs = 10 ^ p := by
  unfold decimalFactor
  rw [Int.natAbs_pow]
  rfl

theorem decimalFactor_pos (p : Nat) : 0 < decimalFactor p := by
  unfold decimalFactor
  positivity

/-- The 64-bit wrap is the identity on values that fit in int64. -/
theorem wrap64_eq_self {x : Int} (h1 : -(2 ^ 63) ≤ x) (h2 : x < 2 ^ 63) :
    wrap64 x = x := by
  unfold wrap64
  omega

/-- For an in-range value, the sign-fixup negation does not wrap and the
printed integer part is just the digit string of the magnitude. -/
theorem intStr_negFix {v : Int} (h1 : minI64 < v) (h2 : v ≤ maxI64) :
    intStr (if v < 0 then wrap64 (-v) else v) = digitsOf v.natAbs := by
  unfold minI64 at h1
  unfold maxI64 at h2
  by_cases hv : v < 0
  · rw [if_pos hv, wrap64_eq_self (by omega) (by omega)]
    simp only [intStr]
    rw [if_neg (show ¬ -v < 0 from by omega), show (-v).toNat = v.natAbs from by omega]
  · rw [if_neg hv]
    simp only [intStr]
    rw [if_neg hv, show v.toNat = v.natAbs from by omega]

/-- Once the scanner has reached IN_END, the remaining iterations of the
loop change nothing. -/
theorem pfold_fin : ∀ (cs : List Char) (s : ParseSt), s.st = PState.fin →
    pfold cs s = s := by
  intro cs
  induction cs with
  | nil =>
      intro s h
      rfl
  | cons c cs ih =>
      intro s h
      show pfold cs (if s.st = PState.fin then s else pstep c s) = s
      rw [if_pos h]
      exact ih s h

/-- Round-trip of the text codec: formatting any decimal value other than
INT64_MIN at any precision 0..18 and parsing the text back succeeds and
returns the value unchanged. -/
theorem fromStr_toStr (p : Nat) (m : Int) (conv : Int → Int → Int) (hp : p ≤ 18)
    (hm1 : minI64 < m) (hm2 : m ≤ maxI64) :
    fromStr p conv (toStr p m) = (true, m) := by
  have hF : 0 < decimalFactor p := decimalFactor_pos p
  have hFne : decimalFactor p ≠ 0 := by omega
  set F := decimalFactor p with hFdef
  set a0 := m.tmod F with ha0def
  set b0 := (m - a0).tdiv F with hb0def
  have hsplit := Int.tdiv_add_tmod m F
  have hb0 : b0 = m.tdiv F := by
    rw [hb0def, ha0def, show m - m.tmod F = F * m.tdiv F from by linear_combination -hsplit,
      Int.mul_tdiv_cancel_left _ hFne]
  have hm : m = b0 * F + a0 := by
    rw [hb0, ha0def]
    linear_combination -hsplit
  have habs : a0.natAbs < F.natAbs := by
    rw [ha0def]
    exact natAbs_tmod_lt hFne
  have hFabs : F.natAbs = 10 ^ p := natAbs_decimalFactor p
  have hup : unpackST p m = (b0, a0) := rfl
  have htm : a0.tmod F = a0 := tmod_eq_self_of_natAbs_lt habs
  have hmabs : m.natAbs ≤ 2 ^ 63 - 1 := by
    unfold minI64 at hm1
    unfold maxI64 at hm2
    omega
  have hb0abs : b0.natAbs ≤ m.natAbs := by
    rw [hb0, Int.natAbs_tdiv]
    exact Nat.div_le_self _ _
  have ha0big : a0.natAbs < 1000000000000000000 + 1 := by
    have hpow : (10 : Nat) ^ p ≤ 1000000000000000000 := by
      calc (10 : Nat) ^ p ≤ 10 ^ 18 := Nat.pow_le_pow_right (by norm_num) hp
        _ = 1000000000000000000 := by norm_num
    have hlt : a0.natAbs < 10 ^ p := hFabs ▸ habs
    omega
  have hB1 : minI64 < b0 := by
    unfold minI64
    omega
  have hB2 : b0 ≤ maxI64 := by
    unfold maxI64
    omega
  have hA1 : minI64 < a0 := by
    unfold minI64
    omega
  have hA2 : a0 ≤ maxI64 := by
    unfold maxI64
    omega
  rcases le_or_lt 0 m with hm0 | hm0
  · -- nonnegative value
    have ha0 : 0 ≤ a0 := Int.tmod_nonneg F hm0
    have hb0nn : 0 ≤ b0 := by rw [hb0]; exact Int.tdiv_nonneg hm0 hF.le
    have hcast_b : ((b0.toNat : Nat) : Int) = b0 := Int.toNat_of_nonneg hb0nn
    have hcast_a : ((a0.toNat : Nat) : Int) = a0 := Int.toNat_of_nonneg ha0
    rcases Nat.eq_zero_or_pos p with hp0 | hp0
    · -- precision 0
      have hF1 : F = 1 := by rw [hFdef, hp0]; rfl
      have ha00 : a0 = 0 := by rw [ha0def, hF1, Int.tmod_one]
      have hstr : toStr p m = (if false then ['-'] else []) ++ digitsOf b0.toNat := by
        simp only [toStr, hup]
        rw [if_neg (show ¬ (b0 < 0 ∨ a0 < 0) from by omega),
          if_neg (show ¬ 0 < p from by omega), intStr_negFix hB1 hB2,
          show b0.natAbs = b0.toNat from by omega]
        simp
      rw [hstr, fromStr, parse_fmt0 false b0.toNat]
      simp only [packST, hp0]
      norm_num [hcast_b]
      rw [show decimalFactor 0 = 1 from rfl]
      rw [hm, ha00, hF1]
      ring
    · -- positive precision
      have halen : (digitsOf a0.toNat).length ≤ p := by
        apply digitsOf_length_le _ _ (by omega)
        omega
      have hstr : toStr p m = (if false then ['-'] else []) ++
          (digitsOf b0.toNat ++ dpointC :: padL p (digitsOf a0.toNat)) := by
        simp only [toStr, hup]
        rw [if_neg (show ¬ (b0 < 0 ∨ a0 < 0) from by omega), if_pos hp0,
          intStr_negFix hB1 hB2, intStr_negFix hA1 hA2,
          show b0.natAbs = b0.toNat from by omega,
          show a0.natAbs = a0.toNat from by omega]
        simp
      rw [hstr, fromStr, parse_fmt false b0.toNat a0.toNat p hp hp0 halen]
      simp only [packST]
      rw [if_pos hp0]
      norm_num [hcast_b, hcast_a, htm]
      rw [← hFdef]
      omega
  · -- negative value
    have ha0 : a0 ≤ 0 := tmod_nonpos F hm0.le
    have hb0np : b0 ≤ 0 := by
      rw [hb0, show m = -(-m) from by ring, Int.neg_tdiv]
      have : 0 ≤ (-m).tdiv F := Int.tdiv_nonneg (by omega) hF.le
      omega
    have hneg : b0 < 0 ∨ a0 < 0 := by
      by_contra hcon
      push_neg at hcon
      have hb00 : b0 = 0 := by omega
      have ha00 : a0 = 0 := by omega
      rw [hb00, ha00] at hm
      omega
    rcases Nat.eq_zero_or_pos p with hp0 | hp0
    · have hF1 : F = 1 := by rw [hFdef, hp0]; rfl
      have ha00 : a0 = 0 := by rw [ha0def, hF1, Int.tmod_one]
      have hstr : toStr p m = (if true then ['-'] else []) ++ digitsOf b0.natAbs := by
        simp only [toStr, hup]
        rw [if_pos (show (b0 < 0 ∨ a0 < 0) from hneg),
          if_neg (show ¬ 0 < p from by omega), intStr_negFix hB1 hB2]
        simp
      rw [hstr, fromStr, parse_fmt0 true b0.natAbs]
      simp only [packST, hp0]
      norm_num
      rw [show decimalFactor 0 = 1 from rfl]
      rw [abs_of_nonpos hb0np, hm, ha00, hF1]
      ring
    · have halen : (digitsOf a0.natAbs).length ≤ p := by
        apply digitsOf_length_le _ _ (by omega)
        omega
      have hstr : toStr p m = (if true then ['-'] else []) ++
          (digitsOf b0.natAbs ++ dpointC :: padL p (digitsOf a0.natAbs)) := by
        simp only [toStr, hup]
        rw [if_pos (show (b0 < 0 ∨ a0 < 0) from hneg), if_pos hp0,
          intStr_negFix hB1 hB2, intStr_negFix hA1 hA2]
        simp
      rw [hstr, fromStr, parse_fmt true b0.natAbs a0.natAbs p hp hp0 halen]
      simp only [packST]
      rw [if_pos hp0]
      norm_num
      rw [abs_of_nonpos hb0np, abs_of_nonpos ha0, ← hFdef, neg_neg, htm]
      linarith [hm]

/-! ### Concrete evaluations used by the fallback witness -/

theorem multDivAux_fb_example : multDivAux (2 ^ 31) (3 * 2 ^ 31) (3 * 2 ^ 61 + 1) =
    Sum.inr (0, 2 ^ 31, 3 * 2 ^ 31, 3 * 2 ^ 61 + 1) := by
  decide

theorem multDivCore_fb_example :
    multDivCore (2 ^ 31) (3 * 2 ^ 31) (3 * 2 ^ 61 + 1) = none := by
  decide

/-! ### Claim theorems -/

/-- C1 (counterexample): the claim fails as stated.  With value1 = 2^31,
value2 = 3*2^30 and divisor = 2^62, the product 3*2^61 is representable in
64 bits, yet multDiv returns 0 instead of the correctly rounded quotient 2
(the quotient is exactly 1.5): the half-divisor correction inside
div_rounded would overflow, the policy reports failure, and the fractional
part is replaced by zero. -/
theorem multDiv_repr_product_not_exact :
    multDivCore (2 ^ 31) (3 * 2 ^ 30) (2 ^ 62) = some 0 ∧
    roundAway (2 ^ 31 * (3 * 2 ^ 30)) (2 ^ 62) = 2 ∧
    multDivCore (2 ^ 31) (3 * 2 ^ 30) (2 ^ 62) ≠
      some (roundAway (2 ^ 31 * (3 * 2 ^ 30)) (2 ^ 62)) := by
  refine ⟨by decide, by decide, ?_⟩
  decide

/-- C1 (amended): for all a, b, d with d nonzero such that the product plus
the half-divisor rounding correction is representable in 64 bits
(|a*b| + |d|/2 ≤ 2^63 - 1), multDiv(a, b, d) returns the quotient a*b/d
rounded to the nearest integer with ties away from zero, as computed in
arbitrary-precision arithmetic. -/
theorem multDiv_exact_on_representable (a b d : Int) (hd : d ≠ 0)
    (hbound : (a * b).natAbs + d.natAbs / 2 ≤ 2 ^ 63 - 1) :
    multDivCore a b d = some (roundAway (a * b) d) :=
  multDivCore_exact hd hbound

/-- C1 (witness): the amended theorem applied at a = 143, b = 5, d = 10;
round(143*5/10) = round(71.5) = 72 ties away from zero. -/
theorem multDiv_exact_on_representable_witness :
    multDivCore 143 5 10 = some (roundAway (143 * 5) 10) ∧ roundAway (143 * 5) 10 = 72 :=
  ⟨multDiv_exact_on_representable 143 5 10 (by decide) (by decide), by decide⟩

/-- C2 (counterexample): the round trip does not hold for every value.  At
the raw value INT64_MIN and precision 0 the int64 negation before = -before
in toStream wraps back to INT64_MIN, the emitted text carries two minus
signs, and parsing it back fails with value 0 instead of recovering the
input. -/
theorem format_parse_min_wraps :
    toStr 0 minI64 = '-' :: '-' :: digitsOf (2 ^ 63) ∧
    ∀ conv : Int → Int → Int, fromStr 0 conv (toStr 0 minI64) = (false, 0) := by
  have hup0 : unpackST 0 minI64 = (minI64, 0) := by decide
  have hts : toStr 0 minI64 = '-' :: '-' :: digitsOf (2 ^ 63) := by
    simp only [toStr, hup0]
    rw [if_pos (show minI64 < 0 ∨ (0 : Int) < 0 from Or.inl (by decide)),
      if_pos (show minI64 < 0 from by decide),
      show wrap64 (-minI64) = minI64 from by decide,
      if_neg (show ¬ 0 < 0 from by omega)]
    simp only [intStr]
    rw [if_pos (show minI64 < 0 from by decide),
      show minI64.natAbs = 2 ^ 63 from by decide]
    simp
  have hs2 : pstep '-' (pstep '-' initPs) =
      { st := PState.fin, sgnV := -1, before := 0, after := 0,
        digits := 0, adigits := 0, err := -1 } := by decide
  have hrp : runParse ('-' :: '-' :: digitsOf (2 ^ 63)) =
      { st := PState.fin, sgnV := -1, before := 0, after := 0,
        digits := 0, adigits := 0, err := -1 } := by
    simp only [runParse]
    rw [pfold_cons_step (show ¬ initPs.st = PState.fin from by decide) _,
      pfold_cons_step (show ¬ (pstep '-' initPs).st = PState.fin from by decide) _, hs2,
      pfold_fin _ _ rfl, if_pos rfl]
  refine ⟨hts, fun conv => ?_⟩
  rw [hts]
  simp only [fromStr, parse_unpacked, hrp]
  norm_num

/-- C2 (amended): formatting any decimal value other than INT64_MIN, of
any precision p in 0..18, with toStream and parsing the text back with
fromStream under the same (classic) locale succeeds and yields the same
value; the higher-precision conversion path (conv) is never consulted. -/
theorem format_parse_roundtrip (p : Nat) (m : Int) (conv : Int → Int → Int)
    (hp : p ≤ 18) (hm1 : minI64 < m) (hm2 : m ≤ maxI64) :
    fromStr p conv (toStr p m) = (true, m) :=
  fromStr_toStr p m conv hp hm1 hm2

/-- C2 (witness): round trip at precision 2 on the raw value -12345,
that is the text -123.45. -/
theorem format_parse_roundtrip_witness :
    fromStr 2 (fun _ _ => 0) (toStr 2 (-12345)) = (true, -12345) :=
  format_parse_roundtrip 2 (-12345) (fun _ _ => 0) (by decide) (by decide) (by decide)

/-- C3 (counterexample): an internal overflow of the rounded division is
neither recovered through the floating fallback nor preserved: at
value1 = 2^31, value2 = 3*2^30, divisor = 2^62 the kernel returns 0 from
the exact path (multDivCore is some, so the fallback is never consulted),
while the fractional contribution had rounded value 2; it is simply lost. -/
theorem multDiv_fraction_lost :
    multDivCore (2 ^ 31) (3 * 2 ^ 30) (2 ^ 62) = some 0 ∧
    roundAway (((2 ^ 31 : Int)).tmod (2 ^ 62) * ((3 * 2 ^ 30 : Int)).tmod (2 ^ 62)) (2 ^ 62)
      = 2 := by
  refine ⟨by decide, by decide⟩

/-- C3 (amended): when the kernel reaches the floating fallback (after the
GCD reduction fails to make the fractional product representable), the
overflow is recovered locally: the fallback is handed a reduced triple
representing exactly the fractional remainder, its value is added to the
exact running result, and no error is surfaced (multDivF is total).
However, when the un-reduced fractional product fits in 64 bits but the
first rounded division reports overflow, the fractional contribution is
replaced by zero rather than recovered. -/
theorem multDiv_fallback_exactness (a b d : Int) (hd : d ≠ 0)
    (h : multDivCore a b d = none) :
    ∃ x y z : Int, z ≠ 0 ∧ x * y * d = a.tmod d * b.tmod d * z ∧
      a * b = d * (a * b.tdiv d + a.tdiv d * b.tmod d) + a.tmod d * b.tmod d ∧
      ∀ fb : Int → Int → Int → Int,
        multDivF fb a b d = (a * b.tdiv d + a.tdiv d * b.tmod d) + fb x y z :=
  multDiv_fallback_recovery a b d hd h

/-- C3 (witness): the fallback theorem applied at value1 = 2^31,
value2 = 3*2^31, divisor = 3*2^61 + 1, where the fractional product
overflows 64 bits even after GCD reduction. -/
theorem multDiv_fallback_exactness_witness :
    multDivCore (2 ^ 31) (3 * 2 ^ 31) (3 * 2 ^ 61 + 1) = none ∧
    ∃ x y z : Int, z ≠ 0 ∧
      x * y * (3 * 2 ^ 61 + 1) =
        (2 ^ 31 : Int).tmod (3 * 2 ^ 61 + 1) * (3 * 2 ^ 31 : Int).tmod (3 * 2 ^ 61 + 1) * z ∧
      (2 ^ 31 : Int) * (3 * 2 ^ 31) =
        (3 * 2 ^ 61 + 1) * ((2 ^ 31 : Int) * (3 * 2 ^ 31 : Int).tdiv (3 * 2 ^ 61 + 1) +
          (2 ^ 31 : Int).tdiv (3 * 2 ^ 61 + 1) * (3 * 2 ^ 31 : Int).tmod (3 * 2 ^ 61 + 1)) +
        (2 ^ 31 : Int).tmod (3 * 2 ^ 61 + 1) * (3 * 2 ^ 31 : Int).tmod (3 * 2 ^ 61 + 1) ∧
      ∀ fb : Int → Int → Int → Int,
        multDivF fb (2 ^ 31) (3 * 2 ^ 31) (3 * 2 ^ 61 + 1) =
          ((2 ^ 31 : Int) * (3 * 2 ^ 31 : Int).tdiv (3 * 2 ^ 61 + 1) +
            (2 ^ 31 : Int).tdiv (3 * 2 ^ 61 + 1) * (3 * 2 ^ 31 : Int).tmod (3 * 2 ^ 61 + 1)) +
            fb x y z :=
  ⟨multDivCore_fb_example,
    multDiv_fallback_exactness (2 ^ 31) (3 * 2 ^ 31) (3 * 2 ^ 61 + 1) (by decide)
      multDivCore_fb_example⟩

/-- C4: at the failing input (left raw 2 at precision 2, right raw 5 at
precision 3) the runtime-precision operator+ indexes the precision-factor
table with the raw-value difference 5 - 2 = 3 and divides by 1000, adding
0 and returning raw 2, while the specified behaviour (rescaling by the
precision difference 10^(3-2) = 10) yields raw 3. -/
theorem rtAdd_uses_value_difference :
    rtAdd 2 2 5 3 = some 2 ∧ rtAddSpec 2 2 5 3 = 3 ∧ (2 : Int) ≠ 3 := by
  refine ⟨by decide, by decide, by decide⟩

/-- C5 (counterexample): dividing the precision-2 decimal with raw value
143125 by decimal_cast<2>(333) yields raw 430, not the claimed 429864. -/
theorem div_example_not_429864 :
    stDiv 2 143125 (decimalCastInt 2 333) = some 430 ∧
    stDiv 2 143125 (decimalCastInt 2 333) ≠ some 429864 := by
  refine ⟨by decide, by decide⟩

/-- C5 (amended): decimal_cast<2>(333) constructs raw 33300 (the value
333.00, not 3.33), and dividing the raw-143125 decimal (1431.25) by it
under the default policy produces raw 430 (the value 4.30, correctly
rounded from 1431.25/333.00 = 4.2980...). -/
theorem div_example_exact :
    decimalCastInt 2 333 = 33300 ∧
    stDiv 2 143125 (decimalCastInt 2 333) = some 430 ∧
    roundAway (143125 * decimalFactor 2) 33300 = 430 := by
  refine ⟨by decide, by decide, by decide⟩

/-- C6: parsing the text -.123 at precision 4 FAILS in the code (reporting
no digits, because the scanner counts only pre-point digits) and yields 0,
contrary to the claim (and to the function's own documentation) that it
succeeds with raw -1230; parsing the empty text fails and yields 0 as the
claim states. -/
theorem parse_minus_dot123_and_empty :
    (∀ conv : Int → Int → Int, fromStr 4 conv ['-', '.', '1', '2', '3'] = (false, 0)) ∧
    (∀ conv : Int → Int → Int, fromStr 4 conv [] = (false, 0)) := by
  have h1 : parse_unpacked ['-', '.', '1', '2', '3'] = (false, 0, 0, 3) := by decide
  have h2 : parse_unpacked ([] : List Char) = (false, 0, 0, 0) := by decide
  constructor
  · intro conv
    simp [fromStr, h1]
  · intro conv
    simp [fromStr, h2]

/-- C7 (counterexample): the gcd helper does not work on absolute values
and its result is not always non-negative: gcd(4, -6) evaluates to -2,
not to the greatest common divisor 2 of the absolute values. -/
theorem gcdI_negative_example :
    gcdI 4 (-6) = -2 ∧ gcdI 4 (-6) < 0 ∧ Nat.gcd 4 6 = 2 := by
  decide

/-- C7 (amended): for every pair of 64-bit integers, the iterative
Euclidean helper computes a greatest common divisor up to sign: its
absolute value is gcd(|a|, |b|) and it divides both operands, but the
result itself may be negative. -/
theorem gcdI_characterisation (a b : Int) :
    (gcdI a b).natAbs = Nat.gcd a.natAbs b.natAbs ∧ gcdI a b ∣ a ∧ gcdI a b ∣ b :=
  ⟨gcdI_natAbs a b, gcdI_dvd_left a b, gcdI_dvd_right a b⟩

/-- C8: pow10 returns 10^n for every n in 0..18, but the runtime-precision
variant's getPrecFactorInt64 table stops at 10^17: at precision 18 the
lookup reads past the end of the table (modelled as none), contradicting
the declared valid domain 0..18. -/
theorem pow10_ok_precfactor_table_short :
    (∀ n : Fin 19, pow10 ((n : Nat) : Int) = 10 ^ (n : Nat)) ∧
    getPrecFactorInt64 18 = none := by
  refine ⟨?_, by decide⟩
  decide

/-- C9 (counterexample): at the most negative raw value the claim fails:
abs negates via 64-bit subtraction 0 - INT64_MIN, which wraps back to
INT64_MIN, so abs(v).sign() is -1, outside {0, 1}. -/
theorem absST_min_sign_negative :
    signST (absST (-(2 ^ 63))) = -1 ∧ signST (absST (-(2 ^ 63))) ≠ 0 ∧
    signST (absST (-(2 ^ 63))) ≠ 1 := by
  refine ⟨by decide, by decide, by decide⟩

/-- C9 (amended): for every 64-bit raw value except INT64_MIN,
abs(v).sign() lies in {0, 1}; and for every value (INT64_MIN included),
sign(v) = 0 exactly when the raw value is 0. -/
theorem absST_sign_spec (v : Int) :
    (minI64 < v → v ≤ maxI64 → (signST (absST v) = 0 ∨ signST (absST v) = 1)) ∧
    (signST v = 0 ↔ v = 0) := by
  constructor
  · intro h1 h2
    unfold signST absST wrap64
    unfold minI64 at h1
    unfold maxI64 at h2
    split_ifs <;> omega
  · unfold signST
    split_ifs <;> first | omega | (simp only [false_iff, true_iff]; omega)

/-- C9 (witness): the amended theorem applied at the raw value -5. -/
theorem absST_sign_spec_witness :
    (signST (absST (-5)) = 0 ∨ signST (absST (-5)) = 1) ∧
    (signST (-5) = 0 ↔ (-5 : Int) = 0) :=
  ⟨(absST_sign_spec (-5)).1 (by decide) (by decide), (absST_sign_spec (-5)).2⟩

/-- C10: unpacking a decimal value of any precision 0..18 into its before
and after parts and packing those parts back reconstructs the raw value
exactly. -/
theorem pack_unpack_roundtrip (p : Nat) (m : Int) (hp : p ≤ 18) :
    packST p (unpackST p m).1 (unpackST p m).2 = m := by
  have hF : 0 < decimalFactor p := decimalFactor_pos p
  have hFne : decimalFactor p ≠ 0 := by omega
  unfold packST unpackST
  by_cases hp0 : 0 < p
  · rw [if_pos hp0]
    simp only []
    rw [tmod_eq_self_of_natAbs_lt (natAbs_tmod_lt hFne)]
    rw [show m - m.tmod (decimalFactor p) = decimalFactor p * m.tdiv (decimalFactor p) from by
      linear_combination -(Int.tdiv_add_tmod m (decimalFactor p))]
    rw [Int.mul_tdiv_cancel_left _ hFne]
    exact Int.tdiv_add_tmod' m (decimalFactor p)
  · have hp00 : p = 0 := by omega
    subst hp00
    rw [if_neg hp0]
    simp [decimalFactor, Int.tmod_one]

/-- C10 (witness): pack after unpack at precision 2 on the raw value
-12345. -/
theorem pack_unpack_roundtrip_witness :
    packST 2 (unpackST 2 (-12345)).1 (unpackST 2 (-12345)).2 = -12345 :=
  pack_unpack_roundtrip 2 (-12345) (by decide)
